import Mathlib

set_option maxRecDepth 4000

/-! Shallow embedding of a two-pass assembler for the Hack architecture.

Source lines are modelled as lists of characters.  The embedding follows the
structure of the source program: a line normaliser (`Parser.preprocess_lines`),
single-line classification and field extraction (`Parser.instruction_type`,
`Parser.symbol`, `Parser.dest`, `Parser.comp`, `Parser.jump`), the three static
encoding tables (`Code.dest_table`, `Code.comp_table`, `Code.jump_table`), the
symbol table (`SymbolTable`), and the two-pass pipeline (`pass1`, `pass2Aux`,
`assemble`). -/

/-- Characters treated as whitespace by Python `str.strip`. -/
def isPySpace (c : Char) : Bool :=
  c == ' ' || c == '\t' || c == '\n' || c == '\r' || c == '\x0b' || c == '\x0c'

/-- Drop leading whitespace characters. -/
def lstrip (cs : List Char) : List Char := cs.dropWhile isPySpace

/-- Drop trailing whitespace characters. -/
def rstrip (cs : List Char) : List Char := (cs.reverse.dropWhile isPySpace).reverse

/-- Python `str.strip`: drop leading and trailing whitespace. -/
def pyStrip (cs : List Char) : List Char := rstrip (lstrip cs)

/-- Whether a list of characters begins with a slash. -/
def headIsSlash (cs : List Char) : Bool := cs.head? == some '/'

/-- The part of a line before the first occurrence of the comment marker
`//` (Python `line.split('//')[0]`). -/
def beforeComment : List Char → List Char
  | [] => []
  | c :: cs => if c == '/' && headIsSlash cs then [] else c :: beforeComment cs

/-- Whether the comment marker `//` occurs anywhere in the line. -/
def hasDS : List Char → Bool
  | [] => false
  | [_] => false
  | c1 :: c2 :: rest => (c1 == '/' && c2 == '/') || hasDS (c2 :: rest)

/-- Whether the line starts with the comment marker `//`. -/
def startsWithDS : List Char → Bool
  | c1 :: c2 :: _ => c1 == '/' && c2 == '/'
  | _ => false

/-- Whether a string is accepted by Python `str.isdigit` for ASCII input:
non-empty and consisting solely of decimal digits. -/
def pyIsdigit (cs : List Char) : Bool := !cs.isEmpty && cs.all Char.isDigit

/-- Python `int` on a string of decimal digits. -/
def pyInt (cs : List Char) : Nat :=
  cs.foldl (fun a c => a * 10 + (c.toNat - '0'.toNat)) 0

/-- Core of the binary rendering used by Python `format(value, 'b')`:
fuel-indexed production of the minimal binary digit string, most significant
bit first, accumulating digits in `ds`. -/
def toBinCore : Nat → Nat → List Char → List Char
  | 0, _, ds => ds
  | fuel + 1, n, ds =>
    if n / 2 = 0 then (if n % 2 = 1 then '1' else '0') :: ds
    else toBinCore fuel (n / 2) ((if n % 2 = 1 then '1' else '0') :: ds)

/-- Minimal binary digit string of a natural number (`format(value, 'b')`). -/
def toBin (n : Nat) : List Char := toBinCore (n + 1) n []

/-- Python `format(value, '016b')`: the minimal binary digit string, padded on
the left with zeros to at least 16 characters (never truncated). -/
def format016b (v : Nat) : List Char :=
  List.replicate (16 - (toBin v).length) '0' ++ toBin v

namespace Parser

/-- One normalised line: strip whitespace, remove the comment tail, strip
again (`line.strip()` then `line.split('//')[0].strip()`). -/
def normLine (l : List Char) : List Char := pyStrip (beforeComment (pyStrip l))

/-- The normaliser: keep each normalised line that is non-empty and does not
start with the comment marker, preserving order. -/
def preprocess_lines : List (List Char) → List (List Char)
  | [] => []
  | l :: ls =>
    if !(normLine l).isEmpty && !startsWithDS (normLine l) then
      normLine l :: preprocess_lines ls
    else
      preprocess_lines ls

/-- The three instruction kinds. -/
inductive IType where
  | A_INSTRUCTION
  | L_INSTRUCTION
  | C_INSTRUCTION
deriving DecidableEq, Repr

/-- Classify a normalised line by its first character: `@` starts an address
instruction, `(` a label instruction, anything else a compute instruction. -/
def instruction_type (l : List Char) : IType :=
  match l with
  | [] => IType.C_INSTRUCTION
  | c :: _ =>
    if c == '@' then IType.A_INSTRUCTION
    else if c == '(' then IType.L_INSTRUCTION
    else IType.C_INSTRUCTION

/-- Symbol extraction: for an address instruction the line without its leading
marker, for a label instruction the line without its first and last
characters, and for a compute instruction the error raised by the source. -/
def symbol (l : List Char) : Except String (List Char) :=
  match instruction_type l with
  | IType.A_INSTRUCTION => Except.ok l.tail
  | IType.L_INSTRUCTION => Except.ok l.tail.dropLast
  | IType.C_INSTRUCTION => Except.error "Called symbol() on a C-instruction"

/-- Destination field: everything before the first `=`, or empty when there is
no `=` (`split('=')[0]`). -/
def dest (l : List Char) : List Char :=
  if l.contains '=' then l.takeWhile (fun c => c != '=') else []

/-- Computation field: everything after the last `=` (the whole line when
there is none), up to the first `;` (`split('=')[-1].split(';')[0]`). -/
def comp (l : List Char) : List Char :=
  ((l.reverse.takeWhile (fun c => c != '=')).reverse).takeWhile (fun c => c != ';')

/-- Jump field: everything after the last `;`, or empty when there is no `;`
(`split(';')[-1]`). -/
def jump (l : List Char) : List Char :=
  if l.contains ';' then (l.reverse.takeWhile (fun c => c != ';')).reverse else []

end Parser

namespace Code

/-- Destination encoding table: eight mnemonics, one per subset of A, M, D. -/
def dest_table : List (List Char × List Char) :=
  [("".toList, "000".toList), ("M".toList, "001".toList),
   ("D".toList, "010".toList), ("MD".toList, "011".toList),
   ("A".toList, "100".toList), ("AM".toList, "101".toList),
   ("AD".toList, "110".toList), ("AMD".toList, "111".toList)]

/-- Jump encoding table: eight mnemonics covering all jump conditions. -/
def jump_table : List (List Char × List Char) :=
  [("".toList, "000".toList), ("JGT".toList, "001".toList),
   ("JEQ".toList, "010".toList), ("JGE".toList, "011".toList),
   ("JLT".toList, "100".toList), ("JNE".toList, "101".toList),
   ("JLE".toList, "110".toList), ("JMP".toList, "111".toList)]

/-- Computation encoding table: 28 mnemonics, each with a 7-bit code. -/
def comp_table : List (List Char × List Char) :=
  [("0".toList, "0101010".toList), ("1".toList, "0111111".toList),
   ("-1".toList, "0111010".toList), ("D".toList, "0001100".toList),
   ("A".toList, "0110000".toList), ("!D".toList, "0001101".toList),
   ("!A".toList, "0110001".toList), ("-D".toList, "0001111".toList),
   ("-A".toList, "0110011".toList), ("D+1".toList, "0011111".toList),
   ("A+1".toList, "0110111".toList), ("D-1".toList, "0001110".toList),
   ("A-1".toList, "0110010".toList), ("D+A".toList, "0000010".toList),
   ("D-A".toList, "0010011".toList), ("A-D".toList, "0000111".toList),
   ("D&A".toList, "0000000".toList), ("D|A".toList, "0010101".toList),
   ("M".toList, "1110000".toList), ("!M".toList, "1110001".toList),
   ("-M".toList, "1110011".toList), ("M+1".toList, "1110111".toList),
   ("M-1".toList, "1110010".toList), ("D+M".toList, "1000010".toList),
   ("D-M".toList, "1010011".toList), ("M-D".toList, "1000111".toList),
   ("D&M".toList, "1000000".toList), ("D|M".toList, "1010101".toList)]

/-- Destination code lookup with the all-zero default (`dict.get(m, '000')`). -/
def dest (m : List Char) : List Char := (List.lookup m dest_table).getD "000".toList

/-- Computation code lookup with the all-zero default. -/
def comp (m : List Char) : List Char := (List.lookup m comp_table).getD "0000000".toList

/-- Jump code lookup with the all-zero default. -/
def jump (m : List Char) : List Char := (List.lookup m jump_table).getD "000".toList

end Code

/-- The symbol table: an insertion-ordered association list (modelling the
Python dict, where the most recent binding of a key is in force) together
with the next free variable address. -/
structure SymbolTable where
  table : List (List Char × Nat)
  next_variable_address : Nat
deriving DecidableEq, Repr

namespace SymbolTable

/-- The freshly constructed symbol table, pre-populated with the predefined
symbols, with variable allocation starting at 16. -/
def init : SymbolTable where
  table :=
    [("SP".toList, 0), ("LCL".toList, 1), ("ARG".toList, 2),
     ("THIS".toList, 3), ("THAT".toList, 4),
     ("R0".toList, 0), ("R1".toList, 1), ("R2".toList, 2), ("R3".toList, 3),
     ("R4".toList, 4), ("R5".toList, 5), ("R6".toList, 6), ("R7".toList, 7),
     ("R8".toList, 8), ("R9".toList, 9), ("R10".toList, 10), ("R11".toList, 11),
     ("R12".toList, 12), ("R13".toList, 13), ("R14".toList, 14), ("R15".toList, 15),
     ("SCREEN".toList, 16384), ("KBD".toList, 24576)]
  next_variable_address := 16

/-- Unconditional insert or overwrite (`self.table[symbol] = address`). -/
def add_entry (st : SymbolTable) (s : List Char) (a : Nat) : SymbolTable :=
  { st with table := (s, a) :: st.table }

/-- Address of a symbol, if present (`self.table.get(symbol)`). -/
def get_address (st : SymbolTable) (s : List Char) : Option Nat :=
  List.lookup s st.table

/-- Membership test (`symbol in self.table`). -/
def contains (st : SymbolTable) (s : List Char) : Bool :=
  (st.get_address s).isSome

/-- Variable allocation: a name already present keeps its address and leaves
the table untouched; a new name is bound to `next_variable_address`, which is
then incremented.  Returns the resulting address with the updated table. -/
def add_variable (st : SymbolTable) (s : List Char) : Nat × SymbolTable :=
  if st.contains s then ((st.get_address s).getD 0, st)
  else
    (st.next_variable_address,
     { table := (s, st.next_variable_address) :: st.table,
       next_variable_address := st.next_variable_address + 1 })

end SymbolTable

/-- Resolution of an address-instruction reference during pass 2: a string of
decimal digits parses as a literal; otherwise a known symbol yields its
address, and an unknown one is allocated as a fresh variable. -/
def resolve (st : SymbolTable) (s : List Char) : Nat × SymbolTable :=
  if pyIsdigit s then (pyInt s, st)
  else if st.contains s then ((st.get_address s).getD 0, st)
  else st.add_variable s

/-- First pass: walk the normalised lines, recording each label under the
address of the next emitted instruction (`rom_address`), which only non-label
instructions advance. -/
def pass1 : SymbolTable → Nat → List (List Char) → SymbolTable
  | st, _, [] => st
  | st, rom, l :: ls =>
    if Parser.instruction_type l = Parser.IType.L_INSTRUCTION then
      pass1 (st.add_entry l.tail.dropLast rom) rom ls
    else
      pass1 st (rom + 1) ls

/-- The 16-character word emitted for a compute instruction: the fixed `111`
marker, then the computation, destination and jump codes. -/
def cWord (l : List Char) : List Char :=
  "111".toList ++ Code.comp (Parser.comp l) ++ Code.dest (Parser.dest l)
    ++ Code.jump (Parser.jump l)

/-- Second pass: emit one binary word per non-label instruction, threading the
symbol table through variable allocation. -/
def pass2Aux : SymbolTable → List (List Char) → List (List Char)
  | _, [] => []
  | st, l :: ls =>
    if Parser.instruction_type l = Parser.IType.A_INSTRUCTION then
      format016b (resolve st l.tail).1 :: pass2Aux (resolve st l.tail).2 ls
    else if Parser.instruction_type l = Parser.IType.C_INSTRUCTION then
      cWord l :: pass2Aux st ls
    else
      pass2Aux st ls

/-- The whole two-pass pipeline: normalise, run pass 1 from the fresh symbol
table, normalise again, and run pass 2. -/
def assemble (raw : List (List Char)) : List (List Char) :=
  pass2Aux (pass1 SymbolTable.init 0 (Parser.preprocess_lines raw))
    (Parser.preprocess_lines raw)

/-- Modelled from the spec: the width-`w` unsigned binary encoding of `n`,
most significant bit first, zero-padded on the left. -/
def specBinary : Nat → Nat → List Char
  | 0, _ => []
  | w + 1, n => specBinary w (n / 2) ++ [if n % 2 = 1 then '1' else '0']

/-- The invariant of one normalised line: non-empty, free of the comment
marker, and without leading or trailing whitespace. -/
def lineOK (s : List Char) : Bool :=
  !s.isEmpty && !hasDS s &&
  (match s.head? with
   | some c => !isPySpace c
   | none => true) &&
  (match s.getLast? with
   | some c => !isPySpace c
   | none => true)

/-- The number of non-label instructions in a list of lines. -/
def countInstr (ls : List (List Char)) : Nat :=
  (ls.filter fun l =>
    decide (Parser.instruction_type l ≠ Parser.IType.L_INSTRUCTION)).length

/-! ### Helper lemmas about association-list lookup and the passes -/

theorem lookup_cons_self {β : Type} (s : List Char) (a : β)
    (t : List (List Char × β)) : List.lookup s ((s, a) :: t) = some a := by
  simp [List.lookup_cons]

theorem lookup_cons_ne {β : Type} {s k : List Char} (a : β)
    (t : List (List Char × β)) (h : s ≠ k) :
    List.lookup s ((k, a) :: t) = List.lookup s t := by
  have hb : (s == k) = false := beq_eq_false_iff_ne.mpr h
  simp [List.lookup_cons, hb]

theorem mem_of_lookup_eq_some {β : Type} {k : List Char} {v : β} :
    ∀ {t : List (List Char × β)}, List.lookup k t = some v → (k, v) ∈ t := by
  intro t
  induction t with
  | nil => intro h; simp [List.lookup] at h
  | cons p t ih =>
    intro h
    obtain ⟨a, b⟩ := p
    rw [List.lookup_cons] at h
    split at h
    · next heq =>
      cases h
      have ha : k = a := by simpa using heq
      subst ha
      exact List.mem_cons_self _ _
    · exact List.mem_cons_of_mem _ (ih h)

theorem get_address_add_entry_self (st : SymbolTable) (s : List Char) (a : Nat) :
    (st.add_entry s a).get_address s = some a :=
  lookup_cons_self s a st.table

theorem get_address_add_entry_ne (st : SymbolTable) {s k : List Char} (a : Nat)
    (h : s ≠ k) : (st.add_entry k a).get_address s = st.get_address s :=
  lookup_cons_ne a st.table h

theorem pass1_next_variable_address :
    ∀ (ls : List (List Char)) (st : SymbolTable) (rom : Nat),
      (pass1 st rom ls).next_variable_address = st.next_variable_address := by
  intro ls
  induction ls with
  | nil => intro st rom; rfl
  | cons l ls ih =>
    intro st rom
    by_cases hL : Parser.instruction_type l = Parser.IType.L_INSTRUCTION
    · simp only [pass1, if_pos hL]
      rw [ih]
      rfl
    · simp only [pass1, if_neg hL]
      exact ih _ _

theorem pass1_get_address_of_no_label (s : List Char) :
    ∀ (ls : List (List Char)) (st : SymbolTable) (rom : Nat),
      (∀ l ∈ ls, Parser.instruction_type l = Parser.IType.L_INSTRUCTION →
        l.tail.dropLast ≠ s) →
      (pass1 st rom ls).get_address s = st.get_address s := by
  intro ls
  induction ls with
  | nil => intro st rom _; rfl
  | cons l ls ih =>
    intro st rom h
    by_cases hL : Parser.instruction_type l = Parser.IType.L_INSTRUCTION
    · simp only [pass1, if_pos hL]
      rw [ih _ _ fun l' hl' => h l' (List.mem_cons_of_mem _ hl')]
      exact get_address_add_entry_ne st rom
        fun he => h l (List.mem_cons_self _ _) hL he.symm
    · simp only [pass1, if_neg hL]
      exact ih _ _ fun l' hl' => h l' (List.mem_cons_of_mem _ hl')

theorem pass1_finds_label (lbl : List Char) (post : List (List Char))
    (hL : Parser.instruction_type lbl = Parser.IType.L_INSTRUCTION)
    (hpost : ∀ l ∈ post, Parser.instruction_type l = Parser.IType.L_INSTRUCTION →
      l.tail.dropLast ≠ lbl.tail.dropLast) :
    ∀ (pre : List (List Char)) (st : SymbolTable) (rom : Nat),
      (pass1 st rom (pre ++ lbl :: post)).get_address lbl.tail.dropLast
        = some (rom + countInstr pre) := by
  intro pre
  induction pre with
  | nil =>
    intro st rom
    simp only [List.nil_append, pass1, if_pos hL]
    rw [pass1_get_address_of_no_label _ post _ _ hpost]
    rw [get_address_add_entry_self]
    simp [countInstr]
  | cons p pre ih =>
    intro st rom
    by_cases hp : Parser.instruction_type p = Parser.IType.L_INSTRUCTION
    · simp only [List.cons_append, pass1, if_pos hp, List.append_eq]
      rw [ih]
      have hc : countInstr (p :: pre) = countInstr pre := by
        simp [countInstr, List.filter_cons, hp]
      rw [hc]
    · simp only [List.cons_append, pass1, if_neg hp, List.append_eq]
      rw [ih]
      have hc : countInstr (p :: pre) = countInstr pre + 1 := by
        simp [countInstr, List.filter_cons, hp]
      rw [hc]
      congr 1
      omega

/-! ### Claim theorems -/

/-- C1: running the two-pass pipeline on the six-line program `@2`, `D=A`,
`@3`, `D=D+A`, `@0`, `M=D` emits exactly the six 16-bit words listed, in
order, one per input instruction. -/
theorem assemble_six_line_example :
    assemble ["@2".toList, "D=A".toList, "@3".toList, "D=D+A".toList,
      "@0".toList, "M=D".toList] =
    ["0000000000000010".toList, "1110110000010000".toList,
     "0000000000000011".toList, "1110000010010000".toList,
     "0000000000000000".toList, "1110001100001000".toList] := by decide

/-- C2: the address pass 1 records for a label equals the number of non-label
instructions that precede its declaration in the normalised program, whatever
blank or comment lines the raw source contained and whatever other labels
surround it. -/
theorem pass1_label_addresses (raw pre post : List (List Char))
    (lbl : List Char)
    (hsplit : Parser.preprocess_lines raw = pre ++ lbl :: post)
    (hL : Parser.instruction_type lbl = Parser.IType.L_INSTRUCTION)
    (hpost : ∀ l ∈ post, Parser.instruction_type l = Parser.IType.L_INSTRUCTION →
      l.tail.dropLast ≠ lbl.tail.dropLast) :
    (pass1 SymbolTable.init 0 (Parser.preprocess_lines raw)).get_address
      lbl.tail.dropLast = some (countInstr pre) := by
  rw [hsplit, pass1_finds_label lbl post hL hpost pre SymbolTable.init 0]
  rw [Nat.zero_add]

theorem pass1_label_addresses_witness :
    (pass1 SymbolTable.init 0 (Parser.preprocess_lines
      ["// add loop".toList, "@2".toList, "  ".toList, "D=A".toList,
       "(LOOP)".toList, "@0".toList])).get_address
      ("(LOOP)".toList).tail.dropLast
      = some (countInstr ["@2".toList, "D=A".toList]) :=
  pass1_label_addresses
    ["// add loop".toList, "@2".toList, "  ".toList, "D=A".toList,
     "(LOOP)".toList, "@0".toList]
    ["@2".toList, "D=A".toList] ["@0".toList] "(LOOP)".toList
    (by decide) (by decide) (by decide)

/-- C3: variable resolution assigns the current next-variable address (16 on
the table produced by pass 1, which leaves the counter of the fresh table
untouched) to a name not yet present and then increments the counter by one,
while a name already present keeps its address and leaves the whole table
unchanged. -/
theorem add_variable_allocation :
    (∀ (st : SymbolTable) (s : List Char), st.contains s = false →
      st.add_variable s = (st.next_variable_address,
        { table := (s, st.next_variable_address) :: st.table,
          next_variable_address := st.next_variable_address + 1 })) ∧
    (∀ (st : SymbolTable) (s : List Char) (a : Nat),
      st.get_address s = some a → st.add_variable s = (a, st)) ∧
    SymbolTable.init.next_variable_address = 16 ∧
    (∀ (ls : List (List Char)) (st : SymbolTable) (rom : Nat),
      (pass1 st rom ls).next_variable_address = st.next_variable_address) := by
  refine ⟨?_, ?_, rfl, pass1_next_variable_address⟩
  · intro st s h
    simp [SymbolTable.add_variable, h]
  · intro st s a h
    have hc : st.contains s = true := by simp [SymbolTable.contains, h]
    simp [SymbolTable.add_variable, hc, h]

theorem add_variable_allocation_witness :
    SymbolTable.init.add_variable "i".toList = (SymbolTable.init.next_variable_address,
      { table := ("i".toList, SymbolTable.init.next_variable_address) ::
          SymbolTable.init.table,
        next_variable_address := SymbolTable.init.next_variable_address + 1 }) ∧
    SymbolTable.init.add_variable "SP".toList = (0, SymbolTable.init) :=
  ⟨add_variable_allocation.1 SymbolTable.init "i".toList (by decide),
   add_variable_allocation.2.1 SymbolTable.init "SP".toList 0 (by decide)⟩

/-- C5 counterexample: the assembler's own first pass, run on the program
`D=A`, `(SP)`, overwrites the predefined symbol `SP` (address 0) with the
label address 1, so predefined addresses are not immutable under the symbol
table operations the assembler performs. -/
theorem predefined_symbols_cex :
    SymbolTable.init.get_address "SP".toList = some 0 ∧
    (pass1 SymbolTable.init 0 (Parser.preprocess_lines
      ["D=A".toList, "(SP)".toList])).get_address "SP".toList = some 1 := by
  decide

/-- C5 (amended): every predefined symbol resolves to its architecture-fixed
address in the freshly constructed table, before any define or allocation
call, and variable allocation never changes the address of a name already
present; only `add_entry` (label definition) can overwrite a predefined
name. -/
theorem predefined_symbols :
    (SymbolTable.init.table.all fun p =>
      SymbolTable.init.get_address p.1 == some p.2) = true ∧
    (∀ (st : SymbolTable) (s name : List Char), st.contains name = true →
      (st.add_variable s).2.get_address name = st.get_address name) := by
  refine ⟨by decide, ?_⟩
  intro st s name h
  by_cases hc : st.contains s = true
  · simp [SymbolTable.add_variable, hc]
  · have hb : st.contains s = false := by simpa using hc
    simp only [SymbolTable.add_variable, hb, Bool.false_eq_true, if_neg,
      ite_false]
    have hne : name ≠ s := by
      intro he
      subst he
      rw [h] at hb
      cases hb
    exact lookup_cons_ne _ st.table hne

theorem predefined_symbols_witness :
    (SymbolTable.init.add_variable "x".toList).2.get_address "SP".toList
      = SymbolTable.init.get_address "SP".toList :=
  predefined_symbols.2 SymbolTable.init "x".toList "SP".toList (by decide)

/-- C7: symbol extraction strips the marker from an address instruction and
the surrounding brackets from a label instruction, but on a compute
instruction it produces the error the source raises instead of any value. -/
theorem symbol_extraction (name l : List Char) :
    Parser.symbol ('@' :: name) = Except.ok name ∧
    Parser.symbol ('(' :: (name ++ [')'])) = Except.ok name ∧
    (Parser.instruction_type l = Parser.IType.C_INSTRUCTION →
      Parser.symbol l = Except.error "Called symbol() on a C-instruction") := by
  refine ⟨?_, ?_, ?_⟩
  · simp [Parser.symbol, Parser.instruction_type]
  · simp [Parser.symbol, Parser.instruction_type, List.dropLast_concat]
  · intro h
    simp [Parser.symbol, h]

theorem symbol_extraction_witness :
    Parser.symbol ('@' :: "sum".toList) = Except.ok "sum".toList ∧
    Parser.symbol ('(' :: ("END".toList ++ [')'])) = Except.ok "END".toList ∧
    Parser.symbol "D=A".toList
      = Except.error "Called symbol() on a C-instruction" :=
  ⟨(symbol_extraction "sum".toList "D=A".toList).1,
   (symbol_extraction "END".toList "D=A".toList).2.1,
   (symbol_extraction "END".toList "D=A".toList).2.2 (by decide)⟩

/-- C8: each encoding table has exactly its documented number of entries,
mnemonics and codes are each pairwise distinct, and looking up any listed
mnemonic returns exactly its listed code, so each table is a bijection
between its mnemonics and its codes. -/
theorem encoding_tables_bijection :
    Code.dest_table.length = 8 ∧ Code.comp_table.length = 28 ∧
    Code.jump_table.length = 8 ∧
    (Code.dest_table.map Prod.fst).Nodup ∧
    (Code.dest_table.map Prod.snd).Nodup ∧
    (Code.comp_table.map Prod.fst).Nodup ∧
    (Code.comp_table.map Prod.snd).Nodup ∧
    (Code.jump_table.map Prod.fst).Nodup ∧
    (Code.jump_table.map Prod.snd).Nodup ∧
    (Code.dest_table.all fun p => Code.dest p.1 == p.2) = true ∧
    (Code.comp_table.all fun p => Code.comp p.1 == p.2) = true ∧
    (Code.jump_table.all fun p => Code.jump p.1 == p.2) = true := by
  decide

theorem dest_code_length (m : List Char) : (Code.dest m).length = 3 := by
  unfold Code.dest
  cases h : List.lookup m Code.dest_table with
  | none => rfl
  | some v =>
    have hm := mem_of_lookup_eq_some h
    have hall : (Code.dest_table.all fun p => p.2.length == 3) = true := by decide
    have := List.all_eq_true.mp hall _ hm
    simpa using this

theorem comp_code_length (m : List Char) : (Code.comp m).length = 7 := by
  unfold Code.comp
  cases h : List.lookup m Code.comp_table with
  | none => rfl
  | some v =>
    have hm := mem_of_lookup_eq_some h
    have hall : (Code.comp_table.all fun p => p.2.length == 7) = true := by decide
    have := List.all_eq_true.mp hall _ hm
    simpa using this

theorem jump_code_length (m : List Char) : (Code.jump m).length = 3 := by
  unfold Code.jump
  cases h : List.lookup m Code.jump_table with
  | none => rfl
  | some v =>
    have hm := mem_of_lookup_eq_some h
    have hall : (Code.jump_table.all fun p => p.2.length == 3) = true := by decide
    have := List.all_eq_true.mp hall _ hm
    simpa using this

/-- C6: a destination, computation or jump mnemonic absent from its table
encodes to the all-zero code of that field's width, and every compute
instruction still yields a complete 16-character word. -/
theorem code_default_codes :
    (∀ m : List Char, List.lookup m Code.dest_table = none →
      Code.dest m = "000".toList) ∧
    (∀ m : List Char, List.lookup m Code.comp_table = none →
      Code.comp m = "0000000".toList) ∧
    (∀ m : List Char, List.lookup m Code.jump_table = none →
      Code.jump m = "000".toList) ∧
    (∀ l : List Char, Parser.instruction_type l = Parser.IType.C_INSTRUCTION →
      (cWord l).length = 16) := by
  refine ⟨?_, ?_, ?_, ?_⟩
  · intro m h; simp [Code.dest, h]
  · intro m h; simp [Code.comp, h]
  · intro m h; simp [Code.jump, h]
  · intro l _
    simp [cWord, dest_code_length, comp_code_length, jump_code_length]

theorem code_default_codes_witness :
    Code.dest "XYZ".toList = "000".toList ∧
    Code.comp "XYZ".toList = "0000000".toList ∧
    Code.jump "XYZ".toList = "000".toList ∧
    (cWord "XYZ=Q;JJJ".toList).length = 16 :=
  ⟨code_default_codes.1 "XYZ".toList (by decide),
   code_default_codes.2.1 "XYZ".toList (by decide),
   code_default_codes.2.2.1 "XYZ".toList (by decide),
   code_default_codes.2.2.2 "XYZ=Q;JJJ".toList (by decide)⟩

/-- C10: a reference is taken as a numeric literal exactly when it is a
non-empty string of decimal digits; anything else — `-5` and the empty
reference of a bare `@` included — is resolved through the symbol table,
with a fresh variable address allocated when the name is absent, and the
pipeline emits a word for such lines rather than failing. -/
theorem resolve_reference :
    (∀ (st : SymbolTable) (s : List Char), pyIsdigit s = true →
      resolve st s = (pyInt s, st)) ∧
    (∀ (st : SymbolTable) (s : List Char), pyIsdigit s = false →
      st.contains s = true → resolve st s = ((st.get_address s).getD 0, st)) ∧
    (∀ (st : SymbolTable) (s : List Char), pyIsdigit s = false →
      st.contains s = false →
      resolve st s = (st.next_variable_address,
        { table := (s, st.next_variable_address) :: st.table,
          next_variable_address := st.next_variable_address + 1 })) ∧
    pyIsdigit "-5".toList = false ∧
    pyIsdigit [] = false ∧
    assemble ["@".toList] = ["0000000000010000".toList] ∧
    assemble ["@-5".toList] = ["0000000000010000".toList] := by
  refine ⟨?_, ?_, ?_, by decide, by decide, by decide, by decide⟩
  · intro st s h; simp [resolve, h]
  · intro st s h hc; simp [resolve, h, hc]
  · intro st s h hc
    simp [resolve, h, hc, SymbolTable.add_variable]

theorem resolve_reference_witness :
    resolve SymbolTable.init "32768".toList = (32768, SymbolTable.init) ∧
    resolve SymbolTable.init "R3".toList = (3, SymbolTable.init) ∧
    resolve SymbolTable.init "-5".toList = (SymbolTable.init.next_variable_address,
      { table := ("-5".toList, SymbolTable.init.next_variable_address) ::
          SymbolTable.init.table,
        next_variable_address := SymbolTable.init.next_variable_address + 1 }) := by
  refine ⟨?_, ?_, resolve_reference.2.2.1 SymbolTable.init "-5".toList
    (by decide) (by decide)⟩
  · have h := resolve_reference.1 SymbolTable.init "32768".toList (by decide)
    rw [h]
    decide
  · have h := resolve_reference.2.1 SymbolTable.init "R3".toList
      (by decide) (by decide)
    rw [h]
    decide

/-! ### Lemmas about the binary rendering -/

theorem toBinCore_acc : ∀ (fuel n : Nat) (ds : List Char),
    toBinCore fuel n ds = toBinCore fuel n [] ++ ds := by
  intro fuel
  induction fuel with
  | zero => intro n ds; rfl
  | succ fuel ih =>
    intro n ds
    by_cases h : n / 2 = 0
    · simp [toBinCore, h]
    · simp only [toBinCore, if_neg h]
      rw [ih (n / 2), ih (n / 2) ((if n % 2 = 1 then '1' else '0') :: [])]
      simp

theorem toBinCore_fuel (n : Nat) : ∀ (f g : Nat), n < f → n < g →
    toBinCore f n [] = toBinCore g n [] := by
  induction n using Nat.strong_induction_on with
  | _ n ih =>
    intro f g hf hg
    cases f with
    | zero => omega
    | succ f =>
      cases g with
      | zero => omega
      | succ g =>
        by_cases h : n / 2 = 0
        · simp [toBinCore, h]
        · simp only [toBinCore, if_neg h]
          rw [toBinCore_acc f, toBinCore_acc g]
          have hlt : n / 2 < n := Nat.div_lt_self (by omega) (by omega)
          rw [ih (n / 2) hlt f g (by omega) (by omega)]

theorem toBin_lt_two (n : Nat) (h : n < 2) :
    toBin n = [if n % 2 = 1 then '1' else '0'] := by
  interval_cases n <;> rfl

theorem toBin_two_le (n : Nat) (h : 2 ≤ n) :
    toBin n = toBin (n / 2) ++ [if n % 2 = 1 then '1' else '0'] := by
  have h2 : ¬ n / 2 = 0 := by omega
  show toBinCore (n + 1) n [] = _
  rw [show toBinCore (n + 1) n [] =
      toBinCore n (n / 2) ((if n % 2 = 1 then '1' else '0') :: []) from by
    simp [toBinCore, h2]]
  rw [toBinCore_acc]
  have hlt : n / 2 < n := Nat.div_lt_self (by omega) (by omega)
  rw [toBinCore_fuel (n / 2) n (n / 2 + 1) hlt (Nat.lt_succ_self _)]
  rfl

theorem toBin_length_le (n : Nat) : ∀ (w : Nat), n < 2 ^ (w + 1) →
    (toBin n).length ≤ w + 1 := by
  induction n using Nat.strong_induction_on with
  | _ n ih =>
    intro w hw
    by_cases h2 : n < 2
    · rw [toBin_lt_two n h2]
      simp
    · cases w with
      | zero => omega
      | succ w =>
        rw [toBin_two_le n (by omega)]
        have hdiv : n / 2 < 2 ^ (w + 1) := by
          rw [Nat.div_lt_iff_lt_mul (by omega)]
          calc n < 2 ^ (w + 1 + 1) := hw
          _ = 2 ^ (w + 1) * 2 := by ring
        have hlt : n / 2 < n := Nat.div_lt_self (by omega) (by omega)
        have := ih (n / 2) hlt w hdiv
        simp only [List.length_append, List.length_cons, List.length_nil]
        omega

theorem specBinary_zero : ∀ (w : Nat), specBinary w 0 = List.replicate w '0' := by
  intro w
  induction w with
  | zero => rfl
  | succ w ih => simp [specBinary, ih, List.replicate_succ']

theorem specBinary_length : ∀ (w n : Nat), (specBinary w n).length = w := by
  intro w
  induction w with
  | zero => intro n; rfl
  | succ w ih => intro n; simp [specBinary, ih]

theorem specBinary_msb_zero : ∀ (w n : Nat), n < 2 ^ w →
    specBinary (w + 1) n = '0' :: specBinary w n := by
  intro w
  induction w with
  | zero =>
    intro n h
    have : n = 0 := by omega
    subst this
    rfl
  | succ w ih =>
    intro n h
    have hdiv : n / 2 < 2 ^ w := by
      rw [Nat.div_lt_iff_lt_mul (by omega)]
      calc n < 2 ^ (w + 1) := h
      _ = 2 ^ w * 2 := by ring
    show specBinary (w + 1) (n / 2) ++ _ = '0' :: specBinary (w + 1) n
    rw [ih (n / 2) hdiv]
    rfl

theorem replicate_sub_toBin (n : Nat) : ∀ (w : Nat), n < 2 ^ (w + 1) →
    List.replicate ((w + 1) - (toBin n).length) '0' ++ toBin n
      = specBinary (w + 1) n := by
  induction n using Nat.strong_induction_on with
  | _ n ih =>
    intro w hw
    by_cases h2 : n < 2
    · rw [toBin_lt_two n h2]
      have hd : n / 2 = 0 := by omega
      show _ = specBinary w (n / 2) ++ [if n % 2 = 1 then '1' else '0']
      rw [hd, specBinary_zero]
      simp
    · cases w with
      | zero => omega
      | succ w =>
        rw [toBin_two_le n (by omega)]
        have hdiv : n / 2 < 2 ^ (w + 1) := by
          rw [Nat.div_lt_iff_lt_mul (by omega)]
          calc n < 2 ^ (w + 1 + 1) := hw
          _ = 2 ^ (w + 1) * 2 := by ring
        have hlen : (toBin (n / 2)).length ≤ w + 1 :=
          toBin_length_le (n / 2) w hdiv
        have hlt : n / 2 < n := Nat.div_lt_self (by omega) (by omega)
        have hsub : (w + 1 + 1) - ((toBin (n / 2)).length + 1)
            = (w + 1) - (toBin (n / 2)).length := by omega
        show List.replicate ((w + 1 + 1) - (toBin (n / 2) ++ _).length) '0'
            ++ (toBin (n / 2) ++ _) = specBinary (w + 1) (n / 2) ++ _
        rw [List.length_append]
        simp only [List.length_cons, List.length_nil, Nat.zero_add]
        rw [hsub, ← List.append_assoc]
        rw [ih (n / 2) hlt w hdiv]

theorem format016b_small (v : Nat) (h : v < 2 ^ 15) :
    format016b v = '0' :: specBinary 15 v := by
  have h16 : v < 2 ^ 16 := by
    calc v < 2 ^ 15 := h
    _ < 2 ^ 16 := by norm_num
  unfold format016b
  rw [show (16 : Nat) = 15 + 1 from rfl, replicate_sub_toBin v 15 h16]
  exact specBinary_msb_zero 15 v h

/-- C4 counterexample: the address instruction `@32768` resolves to 32768 and
is emitted as the word `1000000000000000`, whose high bit is 1, not 0, and
whose remaining 15 bits do not encode 32768 — the claim fails for resolved
addresses of 15 bits and more. -/
theorem address_word_format_cex :
    assemble ["@32768".toList] = ["1000000000000000".toList] ∧
    ("1000000000000000".toList).head? ≠ some '0' := by
  constructor
  · decide
  · decide

/-- C4 (amended): for every address instruction whose resolved address fits in
15 bits, the emitted word is exactly 16 characters, its high bit is 0, and
its remaining 15 bits are the unsigned binary encoding of the resolved
address, zero-padded on the left. -/
theorem address_word_format (st : SymbolTable) (l : List Char)
    (ls : List (List Char))
    (hA : Parser.instruction_type l = Parser.IType.A_INSTRUCTION)
    (hv : (resolve st l.tail).1 < 2 ^ 15) :
    (pass2Aux st (l :: ls)).head?
      = some ('0' :: specBinary 15 (resolve st l.tail).1) ∧
    ('0' :: specBinary 15 (resolve st l.tail).1).length = 16 := by
  constructor
  · simp only [pass2Aux, if_pos hA, List.head?_cons]
    rw [format016b_small _ hv]
  · simp [specBinary_length]

theorem address_word_format_witness :
    (pass2Aux SymbolTable.init ["@2".toList]).head?
      = some ('0' :: specBinary 15 (resolve SymbolTable.init ("@2".toList).tail).1) ∧
    ('0' :: specBinary 15 (resolve SymbolTable.init ("@2".toList).tail).1).length
      = 16 :=
  address_word_format SymbolTable.init "@2".toList [] (by decide) (by decide)

/-! ### Lemmas about the line normaliser -/

theorem head_dropWhile_false (p : Char → Bool) :
    ∀ (cs : List Char) (c : Char), (cs.dropWhile p).head? = some c →
      p c = false := by
  intro cs
  induction cs with
  | nil => intro c h; simp [List.dropWhile] at h
  | cons a cs ih =>
    intro c h
    rw [List.dropWhile_cons] at h
    split at h
    · exact ih c h
    · next hpa =>
      simp only [List.head?_cons, Option.some.injEq] at h
      subst h
      simpa using hpa

theorem lstrip_decomp (v : List Char) :
    v = v.takeWhile isPySpace ++ lstrip v :=
  (List.takeWhile_append_dropWhile isPySpace v).symm

theorem rstrip_decomp (v : List Char) :
    ∃ t, v = rstrip v ++ t := by
  refine ⟨(v.reverse.takeWhile isPySpace).reverse, ?_⟩
  conv_lhs => rw [← List.reverse_reverse v,
    ← List.takeWhile_append_dropWhile isPySpace v.reverse]
  rw [List.reverse_append]
  rfl

theorem pyStrip_decomp (u : List Char) :
    ∃ a b, u = a ++ (pyStrip u ++ b) := by
  obtain ⟨t, ht⟩ := rstrip_decomp (lstrip u)
  refine ⟨u.takeWhile isPySpace, t, ?_⟩
  conv_lhs => rw [lstrip_decomp u, ht]
  rfl

theorem hasDS_append_left : ∀ (l m : List Char), hasDS m = true →
    hasDS (l ++ m) = true := by
  intro l
  induction l with
  | nil => intro m h; simpa using h
  | cons a l ih =>
    intro m h
    have h' : hasDS (l ++ m) = true := ih m h
    rw [List.cons_append]
    cases hl : l ++ m with
    | nil => rw [hl] at h'; simp [hasDS] at h'
    | cons x rest =>
      rw [hl] at h'
      simp [hasDS, h']

theorem hasDS_append_rt : ∀ (m r : List Char), hasDS m = true →
    hasDS (m ++ r) = true := by
  intro m
  induction m with
  | nil => intro r h; simp [hasDS] at h
  | cons a m ih =>
    intro r h
    cases m with
    | nil => simp [hasDS] at h
    | cons b m' =>
      rw [List.cons_append, List.cons_append]
      simp only [hasDS] at h
      rcases Bool.or_eq_true _ _ |>.mp h with h1 | h2
      · simp [hasDS, h1]
      · have := ih r h2
        rw [List.cons_append] at this
        simp [hasDS, this]

theorem hasDS_pyStrip_mono (u : List Char) (h : hasDS (pyStrip u) = true) :
    hasDS u = true := by
  obtain ⟨a, b, hu⟩ := pyStrip_decomp u
  rw [hu]
  exact hasDS_append_left a _ (hasDS_append_rt _ b h)

theorem head_beforeComment (cs : List Char) (d : Char)
    (h : (beforeComment cs).head? = some d) : cs.head? = some d := by
  cases cs with
  | nil => simp [beforeComment] at h
  | cons c cs' =>
    rw [beforeComment] at h
    split at h
    · simp at h
    · simp only [List.head?_cons, Option.some.injEq] at h
      subst h
      rfl

theorem beforeComment_no_ds : ∀ (cs : List Char),
    hasDS (beforeComment cs) = false := by
  intro cs
  induction cs with
  | nil => rfl
  | cons c cs ih =>
    rw [beforeComment]
    split
    · rfl
    · next hcond =>
      cases hb : beforeComment cs with
      | nil => rfl
      | cons d rest =>
        rw [hb] at ih
        simp only [hasDS, ih, Bool.or_false]
        by_contra hcd
        have hcd' : (c == '/' && d == '/') = true := by
          simpa using hcd
        have hc : c = '/' := by
          have := Bool.and_eq_true _ _ |>.mp hcd' |>.1
          simpa using this
        have hd : d = '/' := by
          have := Bool.and_eq_true _ _ |>.mp hcd' |>.2
          simpa using this
        have hhead : cs.head? = some '/' := by
          rw [← hd]
          exact head_beforeComment cs d (by rw [hb]; rfl)
        apply hcond
        simp [hc, headIsSlash, hhead]

theorem pyStrip_head (u : List Char) (c : Char)
    (h : (pyStrip u).head? = some c) : isPySpace c = false := by
  obtain ⟨t, ht⟩ := rstrip_decomp (lstrip u)
  have h2 : (lstrip u).head? = some c := by
    rw [ht, List.head?_append]
    have : (pyStrip u).head? = (rstrip (lstrip u)).head? := rfl
    rw [this] at h
    rw [h]
    rfl
  exact head_dropWhile_false isPySpace u c h2

theorem pyStrip_last (u : List Char) (c : Char)
    (h : (pyStrip u).getLast? = some c) : isPySpace c = false := by
  have h2 : ((lstrip u).reverse.dropWhile isPySpace).head? = some c := by
    have : pyStrip u = ((lstrip u).reverse.dropWhile isPySpace).reverse := rfl
    rw [this, List.getLast?_reverse] at h
    exact h
  exact head_dropWhile_false isPySpace _ c h2

theorem normLine_no_ds (l : List Char) :
    hasDS (Parser.normLine l) = false := by
  cases h : hasDS (Parser.normLine l)
  · rfl
  · exfalso
    have h1 : hasDS (beforeComment (pyStrip l)) = true :=
      hasDS_pyStrip_mono _ h
    rw [beforeComment_no_ds] at h1
    cases h1

theorem normLine_ok (l : List Char)
    (h : (Parser.normLine l).isEmpty = false) :
    lineOK (Parser.normLine l) = true := by
  have h1 := normLine_no_ds l
  simp only [lineOK, h, h1, Bool.not_false, Bool.true_and]
  refine Bool.and_eq_true _ _ |>.mpr ⟨?_, ?_⟩
  · cases hh : (Parser.normLine l).head? with
    | none => rfl
    | some c =>
      have : isPySpace c = false := pyStrip_head (beforeComment (pyStrip l)) c hh
      simp [this]
  · cases hh : (Parser.normLine l).getLast? with
    | none => rfl
    | some c =>
      have : isPySpace c = false := pyStrip_last (beforeComment (pyStrip l)) c hh
      simp [this]

/-- C9: every entry produced by the normaliser is non-empty, contains no
comment marker, and carries no leading or trailing whitespace, and the
surviving entries are the normalised forms of their source lines in the
original relative order. -/
theorem preprocess_invariants (raw : List (List Char)) :
    (Parser.preprocess_lines raw).all lineOK = true ∧
    List.Sublist (Parser.preprocess_lines raw) (raw.map Parser.normLine) := by
  induction raw with
  | nil => exact ⟨rfl, List.Sublist.refl []⟩
  | cons l ls ih =>
    by_cases hc : (!(Parser.normLine l).isEmpty
        && !startsWithDS (Parser.normLine l)) = true
    · have e : Parser.preprocess_lines (l :: ls)
          = Parser.normLine l :: Parser.preprocess_lines ls := by
        simp only [Parser.preprocess_lines, hc, if_true]
      rw [e, List.map_cons]
      have hne : (Parser.normLine l).isEmpty = false := by
        have := Bool.and_eq_true _ _ |>.mp hc |>.1
        simpa using this
      exact ⟨by simp [List.all_cons, normLine_ok l hne, ih.1],
        List.Sublist.cons₂ _ ih.2⟩
    · have e : Parser.preprocess_lines (l :: ls)
          = Parser.preprocess_lines ls := by
        simp only [Parser.preprocess_lines, if_neg hc]
      rw [e, List.map_cons]
      exact ⟨ih.1, List.Sublist.cons _ ih.2⟩
